import Mathlib

/-!
Shallow embedding of the rustsnake rendering core: the dense grid cell model
(`Pixel`, `Color`), the escape-sequence encoders from `terminal.rs`, the
diff walk of `FrameBuffer::update_command_cache` from `frame_buffer.rs`, and
the generic ring buffer from `cyclic_buffer.rs`.  Machine integers (`usize`,
`u8`) are modelled as `Nat`; the sequential writes into the scratch byte
buffer are modelled as emission of the written bytes in order, so the final
write cursor `i` of the Rust code is the length of the emitted list.
-/

namespace Rustsnake

/-- Source `types.rs`: `Vec2<T>` with fields `x`, `y`. -/
structure Vec2 (α : Type) where
  x : α
  y : α
  deriving DecidableEq, Repr

/-- Source `types.rs`: `type Position = Vec2<usize>`. -/
abbrev Position := Vec2 Nat

/-- Source `types.rs`: `type Dimensions = Vec2<usize>`. -/
abbrev Dimensions := Vec2 Nat

/-- Source `frame_buffer.rs`: the `Color` enum. -/
inductive Color where
  | Default
  | White
  | Black
  | Red
  | Green
  | Blue
  | Yellow
  deriving DecidableEq, Repr

instance : Inhabited Color := ⟨Color.Default⟩

/-- Source `frame_buffer.rs`: `Pixel { character, color }`. -/
structure Pixel where
  character : Char
  color : Color
  deriving DecidableEq, Repr

/-- Source `frame_buffer.rs`: `Default for Pixel` is a blank character with the
default color. -/
instance : Inhabited Pixel := ⟨⟨' ', Color.Default⟩⟩

/-- The ASCII bytes of the decimal representation of `n`, most significant
digit first; this models Rust's `usize::to_string` (whose chars are then
cast to `u8` in `Position::encode_ascii`). -/
def natDecStr (n : Nat) : List Nat :=
  if h : n < 10 then [n + 48]
  else natDecStr (n / 10) ++ [n % 10 + 48]
  decreasing_by exact Nat.div_lt_self (by omega) (by omega)

/-- Source `terminal.rs`, `Color::encode_ascii`: the raw code bytes for each color
(the slice the Rust code writes between `ESC [` and `m`). -/
def Color.codeBytes : Color → List Nat
  | Color.Default => [0x30]
  | Color.White => [0x33, 0x37]
  | Color.Black => [0x33, 0x30]
  | Color.Red => [0x33, 0x31]
  | Color.Green => [0x33, 0x32]
  | Color.Blue => [0x33, 0x34]
  | Color.Yellow => [0x33, 0x33]

/-- Source `terminal.rs`, `Color::encode_ascii`: bytes written into the buffer,
in write order: `ESC`, `[`, the code bytes, `m` (0x6d). -/
def Color.encodeAscii (c : Color) : List Nat :=
  0x1b :: 0x5b :: (c.codeBytes ++ [0x6d])

/-- Source `terminal.rs`, `Position::encode_ascii`: bytes written in order:
`ESC`, `[`, decimal of `y+1`, `;` (0x3b), decimal of `x+1`, `H` (0x48). -/
def Position.encodeAscii (p : Position) : List Nat :=
  0x1b :: 0x5b :: (natDecStr (p.y + 1) ++ 0x3b :: (natDecStr (p.x + 1) ++ [0x48]))

/-- UTF-8 encoding of a Unicode scalar value, as produced by Rust's
`char::encode_utf8` (used by `Pixel::encode_ascii` in `terminal.rs`). -/
def utf8Bytes (c : Nat) : List Nat :=
  if c < 0x80 then [c]
  else if c < 0x800 then [0xc0 + c / 0x40, 0x80 + c % 0x40]
  else if c < 0x10000 then
    [0xe0 + c / 0x1000, 0x80 + (c / 0x40) % 0x40, 0x80 + c % 0x40]
  else
    [0xf0 + c / 0x40000, 0x80 + (c / 0x1000) % 0x40, 0x80 + (c / 0x40) % 0x40,
      0x80 + c % 0x40]

/-- Source `terminal.rs`, `Pixel::encode_ascii`: the UTF-8 bytes of the character. -/
def Pixel.encodeAscii (p : Pixel) : List Nat :=
  utf8Bytes p.character.toNat

/-- One raster-position advance of `update_command_cache`
(`position.x += 1; if position.x == dimensions.x { wrap }`). -/
def advancePos (w : Nat) (p : Position) : Position :=
  if p.x + 1 = w then ⟨0, p.y + 1⟩ else ⟨p.x + 1, p.y⟩

/-- Iterated raster advance. -/
def advanceN (w : Nat) : Nat → Position → Position
  | 0, p => p
  | n + 1, p => advanceN w n (advancePos w p)

/-- The loop body of `FrameBuffer::update_command_cache` (frame_buffer.rs,
lines 60-87), walking the zipped front/back pixels with the raster
`position`, the `last_position` at which a character was written, and the
`last_color` emitted.  Returns the bytes written to the scratch buffer in
order; the Rust write cursor `i` is the length of the result. -/
def diffGo (w : Nat) (pos lastPos : Position) (lastColor : Color) :
    List (Pixel × Pixel) → List Nat
  | [] => []
  | (p1, p2) :: rest =>
    let mv : List Nat :=
      if p1 ≠ p2 ∧ (pos.y ≠ lastPos.y ∨ pos.x ≠ lastPos.x + 1) then
        pos.encodeAscii
      else []
    let colorHit : Prop := p1.color ≠ p2.color ∧ p1.color ≠ lastColor
    let cl : List Nat := if colorHit then p1.color.encodeAscii else []
    let lastColorNext : Color := if colorHit then p1.color else lastColor
    let draw : Prop := p1.color ≠ p2.color ∨ p1.character ≠ p2.character
    let ch : List Nat := if draw then p1.encodeAscii else []
    let lastPosNext : Position := if draw then pos else lastPos
    mv ++ cl ++ ch ++ diffGo w (advancePos w pos) lastPosNext lastColorNext rest

/-- Source `frame_buffer.rs`: the `FrameBuffer` state (the scratch buffer itself is
modelled by the emitted byte list; grids are row-major pixel lists as in
`Matrix2`). -/
structure FrameBuffer where
  dimensions : Dimensions
  buffer1 : List Pixel
  buffer2 : List Pixel
  buffer1IsFront : Bool

/-- Source `FrameBuffer::update_command_cache` front-buffer selection. -/
def FrameBuffer.front (fb : FrameBuffer) : List Pixel :=
  if fb.buffer1IsFront then fb.buffer1 else fb.buffer2

/-- Source `FrameBuffer::update_command_cache` back-buffer selection. -/
def FrameBuffer.back (fb : FrameBuffer) : List Pixel :=
  if fb.buffer1IsFront then fb.buffer2 else fb.buffer1

/-- Source `FrameBuffer::update_command_cache`: the full diff walk starting from
position (0,0), last position (0,0) and the default color, over the zipped
front and back pixel sequences.  The result is the emitted byte stream
(`&self.command_cache[0..i]` in the Rust code). -/
def FrameBuffer.updateCommandCache (fb : FrameBuffer) : List Nat :=
  diffGo fb.dimensions.x ⟨0, 0⟩ ⟨0, 0⟩ Color.Default (fb.front.zip fb.back)

/-- Source `FrameBuffer::command_cache_size`: `x * y * (4 + 5 + 10)`. -/
def FrameBuffer.commandCacheSize (d : Dimensions) : Nat :=
  d.x * d.y * (4 + 5 + 10)

/-- Source `cyclic_buffer.rs`: `CyclicBuffer<T>` with a backing vector, a head
index (oldest element), a one-past-tail index (next write slot), and the
explicit `empty` flag. -/
structure CyclicBuffer (T : Type) where
  segments : List T
  headIndex : Nat
  beyondTailIndex : Nat
  empty : Bool

namespace CyclicBuffer

variable {T : Type} [Inhabited T]

/-- Source `CyclicBuffer::new(max_size)`: a default-filled backing vector with both
indices at 0 and the empty flag set. -/
def new (T : Type) [Inhabited T] (maxSize : Nat) : CyclicBuffer T :=
  ⟨List.replicate maxSize default, 0, 0, true⟩

/-- Source `CyclicBuffer::capacity`: the backing vector's length. -/
def capacity (buf : CyclicBuffer T) : Nat :=
  buf.segments.length

/-- Source `CyclicBuffer::count`. -/
def count (buf : CyclicBuffer T) : Nat :=
  if buf.empty then 0
  else if buf.beyondTailIndex > buf.headIndex then
    buf.beyondTailIndex - buf.headIndex
  else
    buf.beyondTailIndex + buf.capacity - buf.headIndex

/-- Source `CyclicBuffer::full`. -/
def full (buf : CyclicBuffer T) : Prop :=
  buf.count = buf.capacity

instance (buf : CyclicBuffer T) : Decidable buf.full :=
  inferInstanceAs (Decidable (_ = _))

/-- Source `CyclicBuffer::increment`: modular increment by capacity. -/
def increment (buf : CyclicBuffer T) (index : Nat) : Nat :=
  (index + 1) % buf.capacity

/-- Source `CyclicBuffer::push`: fails (returning `false`, state unchanged) when
the tail has caught up with the head on a non-empty buffer; otherwise
writes at the tail slot, advances the tail and clears the empty flag. -/
def push (buf : CyclicBuffer T) (value : T) : Bool × CyclicBuffer T :=
  if buf.beyondTailIndex = buf.headIndex ∧ buf.empty = false then
    (false, buf)
  else
    (true,
      { segments := buf.segments.set buf.beyondTailIndex value
        headIndex := buf.headIndex
        beyondTailIndex := buf.increment buf.beyondTailIndex
        empty := false })

/-- Source `CyclicBuffer::force_push`: when full, first advances the head (evicting
the oldest element), then performs the write/tail-advance unconditionally. -/
def forcePush (buf : CyclicBuffer T) (value : T) : CyclicBuffer T :=
  let headIndexNext : Nat :=
    if buf.beyondTailIndex = buf.headIndex ∧ buf.empty = false then
      buf.increment buf.headIndex
    else buf.headIndex
  { segments := buf.segments.set buf.beyondTailIndex value
    headIndex := headIndexNext
    beyondTailIndex := buf.increment buf.beyondTailIndex
    empty := false }

/-- Source `CyclicBuffer::pop`: returns `none` on an empty buffer; otherwise takes
the element at the head (replacing it with the default, as `mem::take`
does), advances the head, and sets the empty flag when the head has reached
the one-past-tail index. -/
def pop (buf : CyclicBuffer T) : Option T × CyclicBuffer T :=
  if buf.empty then (none, buf)
  else
    (some (buf.segments.getD buf.headIndex default),
      { segments := buf.segments.set buf.headIndex default
        headIndex := buf.increment buf.headIndex
        beyondTailIndex := buf.beyondTailIndex
        empty := decide (buf.increment buf.headIndex = buf.beyondTailIndex) })

/-- Source `cyclic_buffer.rs`, `Iter::next`: at iterator position `pos`, stop when
`pos` equals the buffer's count, else yield the segment at
`(head_index + pos) % capacity` and advance the position. -/
def iterNext (buf : CyclicBuffer T) (pos : Nat) : Option (T × Nat) :=
  if pos = buf.count then none
  else some (buf.segments.getD ((buf.headIndex + pos) % buf.capacity) default, pos + 1)

/-- Repeatedly applying `Iter::next` from position `pos`, collecting at most
`fuel` yielded elements. -/
def iterCollect (buf : CyclicBuffer T) : Nat → Nat → List T
  | 0, _ => []
  | fuel + 1, pos =>
    match buf.iterNext pos with
    | none => []
    | some (v, posNext) => v :: iterCollect buf fuel posNext

/-- The sequence observable through `CyclicBuffer::iter` (oldest first):
for each iterator position `i < count`, the segment at
`(head_index + i) % capacity`. -/
def iterList (buf : CyclicBuffer T) : List T :=
  (List.range buf.count).map
    (fun i => buf.segments.getD ((buf.headIndex + i) % buf.capacity) default)

/-- Well-formedness of a reachable buffer state: positive capacity, both
indices within the backing vector, and the empty flag only set when head
and one-past-tail coincide. -/
def WF (buf : CyclicBuffer T) : Prop :=
  0 < buf.capacity ∧ buf.headIndex < buf.capacity ∧
    buf.beyondTailIndex < buf.capacity ∧
    (buf.empty = true → buf.headIndex = buf.beyondTailIndex)

instance (buf : CyclicBuffer T) : Decidable buf.WF :=
  inferInstanceAs (Decidable (_ ∧ _ ∧ _ ∧ _))

end CyclicBuffer

/-- Spec-side rendering (section 6 of the spec) of a positive integer as
its decimal ASCII digits, most significant first, written independently of
the source's `to_string` loop: `Nat.digits` is little-endian, so the digit
list is reversed and each digit offset into ASCII. -/
def specDecimalAscii (n : Nat) : List Nat :=
  ((Nat.digits 10 n).reverse).map (fun d => d + 48)

/-- Spec-side color code table (section 6 of the spec): Default is the
single byte of the digit 0; the others are two ASCII digit bytes. -/
def specColorCode : Color → List Nat
  | Color.Default => [48]
  | Color.White => [51, 55]
  | Color.Black => [51, 48]
  | Color.Red => [51, 49]
  | Color.Green => [51, 50]
  | Color.Blue => [51, 52]
  | Color.Yellow => [51, 51]

/-- Number of decimal digits written by `natDecStr`. -/
def dlen (n : Nat) : Nat := (natDecStr n).length

/-- Alternating row colors for the scratch-buffer counterexample grid. -/
def rowColor (y : Nat) : Color :=
  if y % 2 = 0 then Color.Red else Color.Green

/-- Front column of the counterexample grid: `m` rows starting at absolute
row `y`, each holding a four-byte character with an alternating color. -/
def cexFront : Nat → Nat → List Pixel
  | _, 0 => []
  | y, m + 1 => ⟨Char.ofNat 65536, rowColor y⟩ :: cexFront (y + 1) m

/-- The zipped front/back cell pairs of the counterexample grid (the back
grid holds default pixels). -/
def cexCells : Nat → Nat → List (Pixel × Pixel)
  | _, 0 => []
  | y, m + 1 => (⟨Char.ofNat 65536, rowColor y⟩, (default : Pixel)) :: cexCells (y + 1) m

/-- Closed-form byte cost of the counterexample walk: each of `m` rows
starting at row `y` costs a cursor move (5 plus the digits of the row
number), a 5-byte color command and a 4-byte character. -/
def costSum : Nat → Nat → Nat
  | _, 0 => 0
  | y, m + 1 => (14 + dlen (y + 1)) + costSum (y + 1) m

/-! Infrastructure lemmas about the diff walk. -/

/-- Unfolding lemma for `natDecStr` on a single digit. -/
theorem natDecStr_of_lt {n : Nat} (h : n < 10) : natDecStr n = [n + 48] := by
  unfold natDecStr
  simp [h]

/-- Unfolding lemma for `natDecStr` on a multi-digit number. -/
theorem natDecStr_of_ge {n : Nat} (h : 10 ≤ n) :
    natDecStr n = natDecStr (n / 10) ++ [n % 10 + 48] := by
  conv_lhs => unfold natDecStr
  simp [Nat.not_lt.2 h]

/-- One unfolding step of the diff walk, with the branch state spelled out. -/
theorem diffGo_cons (w : Nat) (pos lastPos : Position) (lastColor : Color)
    (p1 p2 : Pixel) (rest : List (Pixel × Pixel)) :
    diffGo w pos lastPos lastColor ((p1, p2) :: rest) =
      (if p1 ≠ p2 ∧ (pos.y ≠ lastPos.y ∨ pos.x ≠ lastPos.x + 1) then
        pos.encodeAscii else []) ++
      (if p1.color ≠ p2.color ∧ p1.color ≠ lastColor then
        p1.color.encodeAscii else []) ++
      (if p1.color ≠ p2.color ∨ p1.character ≠ p2.character then
        p1.encodeAscii else []) ++
      diffGo w (advancePos w pos)
        (if p1.color ≠ p2.color ∨ p1.character ≠ p2.character then pos else lastPos)
        (if p1.color ≠ p2.color ∧ p1.color ≠ lastColor then p1.color else lastColor)
        rest := rfl

/-- Cells whose front and back pixels agree emit nothing and change nothing
but the raster position. -/
theorem diffGo_allEq_prefix (w : Nat) (pos lastPos : Position) (lastColor : Color)
    (xs ys : List (Pixel × Pixel)) (hall : ∀ pr ∈ xs, pr.1 = pr.2) :
    diffGo w pos lastPos lastColor (xs ++ ys) =
      diffGo w (advanceN w xs.length pos) lastPos lastColor ys := by
  induction xs generalizing pos with
  | nil => simp [advanceN]
  | cons hd tl ih =>
    obtain ⟨p1, p2⟩ := hd
    have hp : p1 = p2 := hall (p1, p2) (by simp)
    subst hp
    rw [List.cons_append, diffGo_cons]
    rw [if_neg (fun hc => hc.1 rfl), if_neg (fun hc => hc.1 rfl),
      if_neg (fun hc => hc.elim (fun q => q rfl) (fun q => q rfl))]
    simp only [List.nil_append, List.length_cons]
    rw [if_neg (fun hc => hc.elim (fun q => q rfl) (fun q => q rfl)),
      if_neg (fun hc => hc.1 rfl)]
    exact ih (advancePos w pos) (fun pr hm => hall pr (List.mem_cons_of_mem _ hm))

/-- A diff over wholly identical cell pairs emits nothing. -/
theorem diffGo_allEq_nil (w : Nat) (pos lastPos : Position) (lastColor : Color)
    (xs : List (Pixel × Pixel)) (hall : ∀ pr ∈ xs, pr.1 = pr.2) :
    diffGo w pos lastPos lastColor xs = [] := by
  have h := diffGo_allEq_prefix w pos lastPos lastColor xs [] hall
  simpa using h

/-- Zipping a list with itself yields only equal pairs. -/
theorem zip_self_allEq {α : Type} (l : List α) : ∀ pr ∈ l.zip l, pr.1 = pr.2 := by
  induction l with
  | nil => simp
  | cons hd tl ih =>
    intro pr hm
    rcases List.mem_cons.1 hm with h | h
    · subst h; rfl
    · exact ih pr h

/-- The raster position after `n` advances from a column inside the grid. -/
theorem advanceN_eq (w n x y : Nat) (hx : x < w) :
    advanceN w n ⟨x, y⟩ = ⟨(x + n) % w, y + (x + n) / w⟩ := by
  induction n generalizing x y with
  | zero =>
    simp [advanceN, Nat.mod_eq_of_lt hx, Nat.div_eq_of_lt hx]
  | succ n ih =>
    show advanceN w n (advancePos w ⟨x, y⟩) = _
    unfold advancePos
    by_cases hxe : x + 1 = w
    · rw [if_pos hxe]
      rw [ih 0 (y + 1) (by omega)]
      have h1 : x + (n + 1) = n + w := by omega
      rw [h1, Nat.add_mod_right, Nat.add_div_right _ (by omega)]
      simp [Vec2.mk.injEq]
      omega
    · rw [if_neg hxe]
      rw [ih (x + 1) y (by omega)]
      have h1 : x + 1 + n = x + (n + 1) := by omega
      rw [h1]

/-- The raster position of the cell with row-major index `n`. -/
theorem advanceN_origin (w n : Nat) (hw : 0 < w) :
    advanceN w n ⟨0, 0⟩ = ⟨n % w, n / w⟩ := by
  have h := advanceN_eq w n 0 0 hw
  simpa using h

/-- A pixel inequality means the color or the character differs. -/
theorem Pixel.ne_elim {p q : Pixel} (h : p ≠ q) :
    p.color ≠ q.color ∨ p.character ≠ q.character := by
  by_contra hc
  push_neg at hc
  exact h (by cases p; cases q; simp_all)

/-- The source's decimal rendering agrees with the spec's decimal ASCII
digits for every positive number. -/
theorem natDecStr_eq_specDecimalAscii {n : Nat} (hn : 0 < n) :
    natDecStr n = specDecimalAscii n := by
  induction n using Nat.strong_induction_on with
  | _ n ih =>
    by_cases h10 : n < 10
    · rw [natDecStr_of_lt h10]
      unfold specDecimalAscii
      rw [Nat.digits_def' (by norm_num) hn, Nat.div_eq_of_lt h10]
      simp [Nat.mod_eq_of_lt h10]
    · push_neg at h10
      rw [natDecStr_of_ge h10]
      have hdivpos : 0 < n / 10 := Nat.div_pos h10 (by norm_num)
      rw [ih (n / 10) (Nat.div_lt_self hn (by norm_num)) hdivpos]
      unfold specDecimalAscii
      rw [Nat.digits_def' (by norm_num) hn]
      simp

/-- Claim C4: diffing two structurally identical grids (front equal to back
cell-for-cell) emits a zero-length command stream. -/
theorem updateCommandCache_self_eq_nil (fb : FrameBuffer) (h : fb.front = fb.back) :
    fb.updateCommandCache = [] := by
  unfold FrameBuffer.updateCommandCache
  rw [h]
  exact diffGo_allEq_nil _ _ _ _ _ (zip_self_allEq _)

/-- Witness for C4 on a concrete 2-by-2 grid. -/
theorem updateCommandCache_self_eq_nil_witness :
    (FrameBuffer.mk ⟨2, 2⟩
        [⟨'a', Color.Red⟩, ⟨'b', Color.Default⟩, ⟨'c', Color.Blue⟩, ⟨'d', Color.Green⟩]
        [⟨'a', Color.Red⟩, ⟨'b', Color.Default⟩, ⟨'c', Color.Blue⟩, ⟨'d', Color.Green⟩]
        true).front =
      (FrameBuffer.mk ⟨2, 2⟩
        [⟨'a', Color.Red⟩, ⟨'b', Color.Default⟩, ⟨'c', Color.Blue⟩, ⟨'d', Color.Green⟩]
        [⟨'a', Color.Red⟩, ⟨'b', Color.Default⟩, ⟨'c', Color.Blue⟩, ⟨'d', Color.Green⟩]
        true).back ∧
    (FrameBuffer.mk ⟨2, 2⟩
        [⟨'a', Color.Red⟩, ⟨'b', Color.Default⟩, ⟨'c', Color.Blue⟩, ⟨'d', Color.Green⟩]
        [⟨'a', Color.Red⟩, ⟨'b', Color.Default⟩, ⟨'c', Color.Blue⟩, ⟨'d', Color.Green⟩]
        true).updateCommandCache = [] :=
  ⟨rfl, updateCommandCache_self_eq_nil _ rfl⟩

/-- Claim C5: the command encodings are byte-exact.  The cursor-move
encoding for zero-indexed `(x, y)` is `ESC [`, the decimal ASCII digits of
`y+1`, `;`, the decimal ASCII digits of `x+1`, `H`; the color-set encoding
is `ESC [ code m` with code bytes 0 / 37 / 30 / 31 / 32 / 34 / 33 for
Default / White / Black / Red / Green / Blue / Yellow. -/
theorem encodeAscii_byte_exact :
    (∀ p : Position, p.encodeAscii =
      [27, 91] ++ specDecimalAscii (p.y + 1) ++ [59] ++ specDecimalAscii (p.x + 1) ++ [72]) ∧
    (∀ c : Color, c.encodeAscii = [27, 91] ++ specColorCode c ++ [109]) := by
  constructor
  · intro p
    unfold Position.encodeAscii
    rw [natDecStr_eq_specDecimalAscii (Nat.succ_pos _),
      natDecStr_eq_specDecimalAscii (Nat.succ_pos _)]
    simp
  · intro c
    cases c <;> rfl

/-- Claim C2: when the grids differ exactly at position (2,1), with the cell
changing from character a with the default color to character b with the
red color, the diff emits exactly the cursor move for (2,1)
(`ESC [ 2 ; 3 H`), the color set for red (`ESC [ 3 1 m`), and the UTF-8
byte for b — in that order, with no other bytes.  (The last-written
position before this cell is the initial (0,0), which is never the same-row
left neighbour of (2,1).) -/
theorem updateCommandCache_single_cell (w h : Nat) (pre post : List Pixel)
    (hw : 3 ≤ w) (hpre : pre.length = w + 2)
    (hgrid : pre.length + 1 + post.length = w * h) :
    (FrameBuffer.mk ⟨w, h⟩ (pre ++ ⟨'b', Color.Red⟩ :: post)
        (pre ++ ⟨'a', Color.Default⟩ :: post) true).updateCommandCache =
      [27, 91, 50, 59, 51, 72, 27, 91, 51, 49, 109, 98] := by
  show diffGo w ⟨0, 0⟩ ⟨0, 0⟩ Color.Default
      ((pre ++ ⟨'b', Color.Red⟩ :: post).zip (pre ++ ⟨'a', Color.Default⟩ :: post)) = _
  rw [List.zip_append rfl, List.zip_cons_cons,
    diffGo_allEq_prefix _ _ _ _ _ _ (zip_self_allEq pre)]
  have hlen : (pre.zip pre).length = w + 2 := by simp [hpre]
  rw [hlen, advanceN_origin w (w + 2) (by omega)]
  have hmod : (w + 2) % w = 2 := by
    have h2 : w + 2 = 2 + w := by omega
    rw [h2, Nat.add_mod_right]
    exact Nat.mod_eq_of_lt (by omega)
  have hdiv : (w + 2) / w = 1 := by
    have h2 : w + 2 = 2 + w := by omega
    rw [h2, Nat.add_div_right _ (by omega), Nat.div_eq_of_lt (by omega)]
  rw [hmod, hdiv, diffGo_cons]
  rw [if_pos ⟨by decide, Or.inl (by decide)⟩, if_pos ⟨by decide, by decide⟩,
    if_pos (Or.inl (by decide))]
  rw [if_pos (Or.inl (by decide)), if_pos ⟨by decide, by decide⟩]
  rw [diffGo_allEq_nil _ _ _ _ _ (zip_self_allEq post)]
  have hpos : Position.encodeAscii ⟨2, 1⟩ = [27, 91, 50, 59, 51, 72] := by
    unfold Position.encodeAscii
    rw [natDecStr_of_lt (by norm_num), natDecStr_of_lt (by norm_num)]
    norm_num
  rw [hpos]
  rfl

/-- Witness for C2: a concrete 4-by-3 grid whose only difference is the
cell at (2,1). -/
theorem updateCommandCache_single_cell_witness :
    3 ≤ 4 ∧
    (List.replicate 6 (default : Pixel)).length = 4 + 2 ∧
    (List.replicate 6 (default : Pixel)).length + 1 +
      (List.replicate 5 (default : Pixel)).length = 4 * 3 ∧
    (FrameBuffer.mk ⟨4, 3⟩
        (List.replicate 6 (default : Pixel) ++ ⟨'b', Color.Red⟩ :: List.replicate 5 (default : Pixel))
        (List.replicate 6 (default : Pixel) ++ ⟨'a', Color.Default⟩ :: List.replicate 5 (default : Pixel))
        true).updateCommandCache =
      [27, 91, 50, 59, 51, 72, 27, 91, 51, 49, 109, 98] :=
  ⟨by norm_num, by simp, by simp,
    updateCommandCache_single_cell 4 3 _ _ (by norm_num) (by simp) (by simp)⟩

/-- Claim C10: when the grids differ only at position (1,0), no cursor-move
command is emitted for that cell — the stream is exactly the color-set
command (when the colors differ and the new color is not the initial
default last-emitted color) followed by the character bytes — because the
last-written position starts at (0,0) even though nothing was written
there in this pass, and (1,0) counts as adjacent to it. -/
theorem updateCommandCache_second_cell_no_move (w h : Nat) (p0 pf pb : Pixel)
    (post : List Pixel) (hw : 2 ≤ w) (hne : pf ≠ pb)
    (hgrid : 2 + post.length = w * h) :
    (FrameBuffer.mk ⟨w, h⟩ (p0 :: pf :: post) (p0 :: pb :: post) true).updateCommandCache =
      (if pf.color ≠ pb.color ∧ pf.color ≠ Color.Default then
        pf.color.encodeAscii else []) ++ pf.encodeAscii := by
  show diffGo w ⟨0, 0⟩ ⟨0, 0⟩ Color.Default
      ((p0 :: pf :: post).zip (p0 :: pb :: post)) = _
  rw [List.zip_cons_cons, List.zip_cons_cons, diffGo_cons]
  rw [if_neg (fun hc => hc.1 rfl), if_neg (fun hc => hc.1 rfl),
    if_neg (fun hc => hc.elim (fun q => q rfl) (fun q => q rfl))]
  rw [if_neg (fun hc => hc.elim (fun q => q rfl) (fun q => q rfl)),
    if_neg (fun hc => hc.1 rfl)]
  have hadv : advancePos w ⟨0, 0⟩ = ⟨1, 0⟩ := by
    simp only [advancePos]
    rw [if_neg (by omega)]
  rw [hadv, diffGo_cons]
  rw [if_neg (fun hc => hc.2.elim (fun q => q rfl) (fun q => q rfl)),
    if_pos (Pixel.ne_elim hne)]
  rw [diffGo_allEq_nil _ _ _ _ _ (zip_self_allEq post)]
  simp

/-- Witness for C10: a concrete 2-by-2 grid differing only at (1,0), with a
color change, emitting the green color command and the character byte but
no cursor move. -/
theorem updateCommandCache_second_cell_no_move_witness :
    2 ≤ 2 ∧ (⟨'x', Color.Green⟩ : Pixel) ≠ ⟨'y', Color.Default⟩ ∧
    2 + (List.replicate 2 (default : Pixel)).length = 2 * 2 ∧
    (FrameBuffer.mk ⟨2, 2⟩
        (⟨' ', Color.Default⟩ :: ⟨'x', Color.Green⟩ :: List.replicate 2 (default : Pixel))
        (⟨' ', Color.Default⟩ :: ⟨'y', Color.Default⟩ :: List.replicate 2 (default : Pixel))
        true).updateCommandCache =
      (if (Color.Green ≠ Color.Default ∧ Color.Green ≠ Color.Default) then
        Color.encodeAscii Color.Green else []) ++ Pixel.encodeAscii ⟨'x', Color.Green⟩ :=
  ⟨by norm_num, by decide, by simp,
    updateCommandCache_second_cell_no_move 2 2 _ _ _ _ (by norm_num) (by decide) (by simp)⟩

/-- Counterexample to claim C3 as stated: a 4-by-1 grid whose two differing
cells are the horizontally adjacent (1,0) and (2,0), both changing only
their character.  The emitted stream is just the two character bytes; it
contains no cursor-move command at all (the claimed stream would open with
the 6-byte move for (1,0)). -/
theorem adjacent_pair_counterexample :
    (FrameBuffer.mk ⟨4, 1⟩
        [⟨' ', Color.Default⟩, ⟨'x', Color.Default⟩, ⟨'y', Color.Default⟩, ⟨' ', Color.Default⟩]
        [⟨' ', Color.Default⟩, ⟨'a', Color.Default⟩, ⟨'d', Color.Default⟩, ⟨' ', Color.Default⟩]
        true).updateCommandCache = [120, 121] ∧
    ([120, 121] : List Nat) ≠
      Position.encodeAscii ⟨1, 0⟩ ++
        (Pixel.encodeAscii ⟨'x', Color.Default⟩ ++ Pixel.encodeAscii ⟨'y', Color.Default⟩) := by
  constructor
  · decide
  · have hx : Position.encodeAscii ⟨1, 0⟩ = [27, 91, 49, 59, 50, 72] := by
      unfold Position.encodeAscii
      rw [natDecStr_of_lt (by norm_num), natDecStr_of_lt (by norm_num)]
      norm_num
    rw [hx]
    decide

/-- Claim C3 as amended: when exactly two horizontally adjacent cells in
the same row change only their characters, and the first of the two is not
the cell (1,0) adjacent to the initial last-written position, the stream is
exactly one cursor-move command for the first cell followed by the two
character encodings back-to-back, with no cursor move before the second. -/
theorem updateCommandCache_adjacent_pair (w h k : Nat) (pre post : List Pixel)
    (a1 a2 b1 b2 : Pixel)
    (hpre : pre.length = k)
    (hrow : k % w + 1 < w)
    (hk : k ≠ 1)
    (hc1 : a1.character ≠ b1.character) (hc2 : a2.character ≠ b2.character)
    (hcol1 : a1.color = b1.color) (hcol2 : a2.color = b2.color)
    (hgrid : k + 2 + post.length = w * h) :
    (FrameBuffer.mk ⟨w, h⟩ (pre ++ a1 :: a2 :: post) (pre ++ b1 :: b2 :: post)
        true).updateCommandCache =
      Position.encodeAscii ⟨k % w, k / w⟩ ++ (a1.encodeAscii ++ a2.encodeAscii) := by
  have hw : 0 < w := by omega
  have hne1 : a1 ≠ b1 := fun he => hc1 (congrArg Pixel.character he)
  have hne2 : a2 ≠ b2 := fun he => hc2 (congrArg Pixel.character he)
  have hmove : k / w ≠ 0 ∨ k % w ≠ 0 + 1 := by
    by_contra hcon
    push_neg at hcon
    obtain ⟨hd, hm⟩ := hcon
    have hdm := Nat.div_add_mod k w
    rw [hd, Nat.mul_zero] at hdm
    omega
  show diffGo w ⟨0, 0⟩ ⟨0, 0⟩ Color.Default
      ((pre ++ a1 :: a2 :: post).zip (pre ++ b1 :: b2 :: post)) = _
  rw [List.zip_append rfl, List.zip_cons_cons, List.zip_cons_cons,
    diffGo_allEq_prefix _ _ _ _ _ _ (zip_self_allEq pre)]
  have hlen : (pre.zip pre).length = k := by simp [hpre]
  rw [hlen, advanceN_origin w k hw, diffGo_cons]
  rw [if_pos ⟨hne1, hmove⟩, if_neg (fun hc => hc.1 hcol1), if_pos (Or.inr hc1)]
  rw [if_pos (Or.inr hc1), if_neg (fun hc => hc.1 hcol1)]
  have hadv : advancePos w ⟨k % w, k / w⟩ = ⟨k % w + 1, k / w⟩ := by
    simp only [advancePos]
    rw [if_neg (by omega)]
  rw [hadv, diffGo_cons]
  rw [if_neg (fun hc => hc.2.elim (fun q => q rfl) (fun q => q rfl)),
    if_neg (fun hc => hc.1 hcol2), if_pos (Or.inr hc2)]
  rw [if_pos (Or.inr hc2), if_neg (fun hc => hc.1 hcol2)]
  rw [diffGo_allEq_nil _ _ _ _ _ (zip_self_allEq post)]
  simp [Pixel.encodeAscii]

/-- Witness for the amended C3: a concrete 4-by-2 grid with the adjacent
pair at (1,1) and (2,1); the stream is the move to (1,1) followed by the
two characters. -/
theorem updateCommandCache_adjacent_pair_witness :
    (List.replicate 5 (default : Pixel)).length = 5 ∧
    5 % 4 + 1 < 4 ∧ (5 : Nat) ≠ 1 ∧
    ('x' ≠ 'a' ∧ 'y' ≠ 'd') ∧
    5 + 2 + (List.replicate 1 (default : Pixel)).length = 4 * 2 ∧
    (FrameBuffer.mk ⟨4, 2⟩
        (List.replicate 5 (default : Pixel) ++
          ⟨'x', Color.Blue⟩ :: ⟨'y', Color.Default⟩ :: List.replicate 1 (default : Pixel))
        (List.replicate 5 (default : Pixel) ++
          ⟨'a', Color.Blue⟩ :: ⟨'d', Color.Default⟩ :: List.replicate 1 (default : Pixel))
        true).updateCommandCache =
      Position.encodeAscii ⟨5 % 4, 5 / 4⟩ ++
        (Pixel.encodeAscii ⟨'x', Color.Blue⟩ ++ Pixel.encodeAscii ⟨'y', Color.Default⟩) :=
  ⟨by simp, by norm_num, by norm_num, ⟨by decide, by decide⟩, by simp,
    updateCommandCache_adjacent_pair 4 2 5 _ _ _ _ _ _ (by simp) (by norm_num)
      (by norm_num) (by decide) (by decide) (by decide) (by decide) (by simp)⟩

namespace CyclicBuffer

variable {T : Type} [Inhabited T]

/-- Reading a slot other than the one just set reads the original list. -/
theorem getD_set_ne {l : List T} {i j : Nat} {a d : T} (h : j ≠ i) :
    (l.set i a).getD j d = l.getD j d := by
  simp [List.getD, List.getElem?_set_ne (fun he => h he.symm)]

/-- Reading the slot just set yields the new value when in bounds. -/
theorem getD_set_self {l : List T} {i : Nat} {a d : T} (h : i < l.length) :
    (l.set i a).getD i d = a := by
  simp [List.getD, List.getElem?_set_self', List.getElem?_eq_getElem h]

/-- Adding a fixed offset is injective modulo the capacity on in-range
values. -/
theorem mod_add_cancel {c h a b : Nat} (ha : a < c) (hb : b < c)
    (hab : (h + a) % c = (h + b) % c) : a = b :=
  (Nat.ModEq.add_left_cancel' h hab).eq_of_lt_of_lt ha hb

/-- The count of a well-formed buffer never exceeds the capacity. -/
theorem count_le_capacity (buf : CyclicBuffer T) (wf : buf.WF) :
    buf.count ≤ buf.capacity := by
  obtain ⟨hc, hh, ht, he⟩ := wf
  unfold count
  by_cases hemp : buf.empty = true
  · rw [if_pos hemp]; omega
  · rw [if_neg hemp]
    by_cases hgt : buf.beyondTailIndex > buf.headIndex
    · rw [if_pos hgt]; omega
    · rw [if_neg hgt]; omega

/-- The one-past-tail index is the head plus the count, modulo capacity. -/
theorem tail_eq_head_add_count (buf : CyclicBuffer T) (wf : buf.WF) :
    buf.beyondTailIndex = (buf.headIndex + buf.count) % buf.capacity := by
  obtain ⟨hc, hh, ht, he⟩ := wf
  unfold count
  by_cases hemp : buf.empty = true
  · rw [if_pos hemp, he hemp, Nat.add_zero, Nat.mod_eq_of_lt ht]
  · rw [if_neg hemp]
    by_cases hgt : buf.beyondTailIndex > buf.headIndex
    · rw [if_pos hgt]
      have h1 : buf.headIndex + (buf.beyondTailIndex - buf.headIndex) =
          buf.beyondTailIndex := by omega
      rw [h1, Nat.mod_eq_of_lt ht]
    · rw [if_neg hgt]
      have h1 : buf.headIndex + (buf.beyondTailIndex + buf.capacity - buf.headIndex) =
          buf.beyondTailIndex + buf.capacity := by omega
      rw [h1, Nat.add_mod_right, Nat.mod_eq_of_lt ht]

/-- A well-formed buffer is at capacity exactly when the tail has caught up
with the head while non-empty (the source's fullness test in `push` and
`force_push`). -/
theorem count_eq_capacity_iff (buf : CyclicBuffer T) (wf : buf.WF) :
    buf.count = buf.capacity ↔
      (buf.beyondTailIndex = buf.headIndex ∧ buf.empty = false) := by
  obtain ⟨hc, hh, ht, he⟩ := wf
  unfold count
  by_cases hemp : buf.empty = true
  · rw [if_pos hemp]
    constructor
    · omega
    · rintro ⟨-, h2⟩
      rw [hemp] at h2
      cases h2
  · rw [if_neg hemp]
    have hemp' : buf.empty = false := by
      revert hemp
      cases buf.empty <;> simp
    by_cases hgt : buf.beyondTailIndex > buf.headIndex
    · rw [if_pos hgt]
      constructor
      · omega
      · rintro ⟨h1, -⟩
        omega
    · rw [if_neg hgt]
      constructor
      · intro h1
        exact ⟨by omega, hemp'⟩
      · rintro ⟨h1, -⟩
        omega

/-- Splitting the modulus: the tail is either head + count directly or
wrapped around once. -/
theorem tail_cases (buf : CyclicBuffer T) (wf : buf.WF) :
    buf.beyondTailIndex = buf.headIndex + buf.count ∨
      (buf.beyondTailIndex = buf.headIndex + buf.count - buf.capacity ∧
        buf.capacity ≤ buf.headIndex + buf.count) := by
  have htl := tail_eq_head_add_count buf wf
  obtain ⟨hc, hh, ht, he⟩ := wf
  by_cases hlt : buf.headIndex + buf.count < buf.capacity
  · left
    rw [htl]
    exact Nat.mod_eq_of_lt hlt
  · right
    push_neg at hlt
    have hcnt := count_le_capacity buf ⟨hc, hh, ht, he⟩
    refine ⟨?_, hlt⟩
    rw [htl, Nat.mod_eq_sub_mod hlt]
    exact Nat.mod_eq_of_lt (by omega)

/-- Modular increment of an in-range index, as a plain case split. -/
theorem inc_eq {i c : Nat} (hi : i < c) :
    (i + 1) % c = if i + 1 = c then 0 else i + 1 := by
  by_cases hq : i + 1 = c
  · rw [if_pos hq, hq, Nat.mod_self]
  · rw [if_neg hq]
    exact Nat.mod_eq_of_lt (by omega)

/-- The count of the state produced by a successful write-at-tail (shared
by `push` and the non-full branch of `forcePush`). -/
theorem pushState_count (buf : CyclicBuffer T) (v : T) (wf : buf.WF)
    (hlt : buf.count < buf.capacity) :
    count ⟨buf.segments.set buf.beyondTailIndex v, buf.headIndex,
      (buf.beyondTailIndex + 1) % buf.capacity, false⟩ = buf.count + 1 := by
  have hcase := tail_cases buf wf
  obtain ⟨hc, hh, ht, he⟩ := wf
  unfold capacity at hcase hc hh ht hlt ⊢
  show (if (false = true) then 0
    else if (buf.beyondTailIndex + 1) % buf.segments.length > buf.headIndex then
      (buf.beyondTailIndex + 1) % buf.segments.length - buf.headIndex
    else (buf.beyondTailIndex + 1) % buf.segments.length +
      (buf.segments.set buf.beyondTailIndex v).length - buf.headIndex) = buf.count + 1
  rw [if_neg (by simp), List.length_set]
  by_cases hq : buf.beyondTailIndex + 1 = buf.segments.length
  · have h0 : (buf.beyondTailIndex + 1) % buf.segments.length = 0 := by
      rw [hq, Nat.mod_self]
    rw [h0, if_neg (by omega)]
    rcases hcase with h1 | ⟨h1, h2⟩ <;> omega
  · have h0 : (buf.beyondTailIndex + 1) % buf.segments.length =
        buf.beyondTailIndex + 1 := Nat.mod_eq_of_lt (by omega)
    rw [h0]
    rcases hcase with h1 | ⟨h1, h2⟩ <;> split_ifs <;> omega

/-- The observable sequence of the state produced by a successful
write-at-tail: the old sequence with the new value appended. -/
theorem pushState_iterList (buf : CyclicBuffer T) (v : T) (wf : buf.WF)
    (hlt : buf.count < buf.capacity) :
    iterList ⟨buf.segments.set buf.beyondTailIndex v, buf.headIndex,
      (buf.beyondTailIndex + 1) % buf.capacity, false⟩ = buf.iterList ++ [v] := by
  have htl := tail_eq_head_add_count buf wf
  have hcnt := pushState_count buf v wf hlt
  obtain ⟨hc, hh, ht, he⟩ := wf
  unfold iterList
  rw [hcnt]
  show (List.range (buf.count + 1)).map
      (fun i => (buf.segments.set buf.beyondTailIndex v).getD
        ((buf.headIndex + i) % (buf.segments.set buf.beyondTailIndex v).length) default) = _
  simp only [List.length_set]
  rw [List.range_succ, List.map_append]
  congr 1
  · apply List.map_congr_left
    intro i hi
    rw [List.mem_range] at hi
    have hslot : (buf.headIndex + i) % buf.capacity ≠ buf.beyondTailIndex := by
      intro hq
      rw [htl] at hq
      have := mod_add_cancel (c := buf.capacity) (by omega) (by omega) hq
      omega
    exact getD_set_ne hslot
  · show [(buf.segments.set buf.beyondTailIndex v).getD
      ((buf.headIndex + buf.count) % buf.capacity) default] = [v]
    rw [← htl, getD_set_self ht]

/-- A failed fullness test means the buffer is strictly below capacity. -/
theorem not_full_of_not_cond (buf : CyclicBuffer T) (wf : buf.WF)
    (h : ¬(buf.beyondTailIndex = buf.headIndex ∧ buf.empty = false)) :
    buf.count < buf.capacity := by
  have hle := count_le_capacity buf wf
  have hiff := count_eq_capacity_iff buf wf
  rcases Nat.lt_or_ge buf.count buf.capacity with hlt | hge
  · exact hlt
  · exact absurd (hiff.1 (by omega)) h

/-- Claim C6: `push` returns false exactly when the buffer was at capacity
beforehand; on a full buffer it leaves the whole state unchanged, and
otherwise it succeeds, increments the count and appends the pushed value
as the newest observable element. -/
theorem push_spec (buf : CyclicBuffer T) (v : T) (wf : buf.WF) :
    ((buf.push v).1 = false ↔ buf.count = buf.capacity) ∧
    ((buf.push v).1 = false → (buf.push v).2 = buf) ∧
    ((buf.push v).1 = true →
      (buf.push v).2.count = buf.count + 1 ∧
      (buf.push v).2.iterList = buf.iterList ++ [v]) := by
  have hiff := count_eq_capacity_iff buf wf
  by_cases hfull : buf.beyondTailIndex = buf.headIndex ∧ buf.empty = false
  · have hres : buf.push v = (false, buf) := by
      unfold push
      rw [if_pos hfull]
    rw [hres]
    exact ⟨by simp [hiff.2 hfull], fun _ => rfl, fun habs => Bool.noConfusion habs⟩
  · have hres : buf.push v = (true,
        ⟨buf.segments.set buf.beyondTailIndex v, buf.headIndex,
          (buf.beyondTailIndex + 1) % buf.capacity, false⟩) := by
      unfold push increment
      rw [if_neg hfull]
    have hlt := not_full_of_not_cond buf wf hfull
    rw [hres]
    refine ⟨by simp; omega, fun habs => Bool.noConfusion habs, fun _ => ?_⟩
    exact ⟨pushState_count buf v wf hlt, pushState_iterList buf v wf hlt⟩

/-- Witness for C6 at two concrete states: a capacity-3 buffer holding two
elements accepts a push, and a full one refuses it. -/
theorem push_spec_witness :
    (CyclicBuffer.mk [10, 20, 30] 0 2 false : CyclicBuffer Nat).WF ∧
    (((CyclicBuffer.mk [10, 20, 30] 0 2 false : CyclicBuffer Nat).push 7).1 = false ↔
      (CyclicBuffer.mk [10, 20, 30] 0 2 false : CyclicBuffer Nat).count =
        (CyclicBuffer.mk [10, 20, 30] 0 2 false : CyclicBuffer Nat).capacity) ∧
    (((CyclicBuffer.mk [10, 20, 30] 0 2 false : CyclicBuffer Nat).push 7).1 = false →
      ((CyclicBuffer.mk [10, 20, 30] 0 2 false : CyclicBuffer Nat).push 7).2 =
        CyclicBuffer.mk [10, 20, 30] 0 2 false) ∧
    (((CyclicBuffer.mk [10, 20, 30] 0 2 false : CyclicBuffer Nat).push 7).1 = true →
      ((CyclicBuffer.mk [10, 20, 30] 0 2 false : CyclicBuffer Nat).push 7).2.count =
        (CyclicBuffer.mk [10, 20, 30] 0 2 false : CyclicBuffer Nat).count + 1 ∧
      ((CyclicBuffer.mk [10, 20, 30] 0 2 false : CyclicBuffer Nat).push 7).2.iterList =
        (CyclicBuffer.mk [10, 20, 30] 0 2 false : CyclicBuffer Nat).iterList ++ [7]) :=
  ⟨by decide, push_spec (CyclicBuffer.mk [10, 20, 30] 0 2 false) 7 (by decide)⟩

/-- Claim C7: `force_push` always succeeds, leaving the count at the
minimum of the capacity and the previous count plus one; on a full buffer
the oldest observable element is dropped and the pushed value appended, and
in every case the newest observable element is the value just pushed. -/
theorem forcePush_spec (buf : CyclicBuffer T) (v : T) (wf : buf.WF) :
    (buf.forcePush v).count = min buf.capacity (buf.count + 1) ∧
    (buf.count = buf.capacity →
      (buf.forcePush v).iterList = buf.iterList.drop 1 ++ [v]) ∧
    ((buf.forcePush v).iterList).getLast? = some v := by
  have hiff := count_eq_capacity_iff buf wf
  by_cases hfull : buf.beyondTailIndex = buf.headIndex ∧ buf.empty = false
  · have hcc : buf.count = buf.capacity := hiff.2 hfull
    have htl := tail_eq_head_add_count buf wf
    obtain ⟨htlhd, hemp⟩ := hfull
    obtain ⟨hc, hh, ht, he⟩ := wf
    have hres : buf.forcePush v =
        ⟨buf.segments.set buf.beyondTailIndex v, (buf.headIndex + 1) % buf.capacity,
          (buf.beyondTailIndex + 1) % buf.capacity, false⟩ := by
      have hfl : buf.beyondTailIndex = buf.headIndex ∧ buf.empty = false := ⟨htlhd, hemp⟩
      unfold forcePush increment
      rw [if_pos hfl]
    rw [hres]
    have hcountF : count ⟨buf.segments.set buf.beyondTailIndex v,
        (buf.headIndex + 1) % buf.capacity,
        (buf.beyondTailIndex + 1) % buf.capacity, false⟩ = buf.capacity := by
      unfold count capacity
      simp only [List.length_set]
      rw [if_neg (by simp), htlhd]
      rw [if_neg (by omega)]
      unfold capacity at hc
      have hmlt : (buf.headIndex + 1) % buf.segments.length < buf.segments.length :=
        Nat.mod_lt _ (by omega)
      omega
    have hfiter : iterList ⟨buf.segments.set buf.beyondTailIndex v,
        (buf.headIndex + 1) % buf.capacity,
        (buf.beyondTailIndex + 1) % buf.capacity, false⟩ =
        buf.iterList.drop 1 ++ [v] := by
      obtain ⟨m, hm⟩ : ∃ m, buf.capacity = m + 1 := ⟨buf.capacity - 1, by omega⟩
      unfold iterList
      rw [hcountF, hcc]
      rw [show List.range buf.capacity = List.range (m + 1) from by rw [hm]]
      conv_lhs => rw [List.range_succ]
      conv_rhs => rw [List.range_succ_eq_map]
      simp only [List.map_append, List.map_cons, List.map_map, List.drop_succ_cons,
        List.drop_zero]
      unfold capacity
      simp only [List.length_set]
      unfold capacity at hc hh ht hm
      congr 1
      · apply List.map_congr_left
        intro i hi
        rw [List.mem_range] at hi
        have hmm : ((buf.headIndex + 1) % buf.segments.length + i) % buf.segments.length =
            (buf.headIndex + (1 + i)) % buf.segments.length := by
          rw [Nat.mod_add_mod, Nat.add_assoc]
        rw [hmm]
        have hslot : (buf.headIndex + (1 + i)) % buf.segments.length ≠
            buf.beyondTailIndex := by
          intro hq
          rw [htlhd] at hq
          have hq0 : (buf.headIndex + (1 + i)) % buf.segments.length =
              (buf.headIndex + 0) % buf.segments.length := by
            rw [hq, Nat.add_zero, Nat.mod_eq_of_lt hh]
          have := mod_add_cancel (c := buf.segments.length) (by omega) (by omega) hq0
          omega
        rw [getD_set_ne hslot]
        simp only [Function.comp]
        have hpl : buf.headIndex + (1 + i) = buf.headIndex + (i + 1) := by omega
        rw [hpl]
      · have hmm : ((buf.headIndex + 1) % buf.segments.length + m) % buf.segments.length =
            buf.headIndex := by
          rw [Nat.mod_add_mod]
          have hpl : buf.headIndex + 1 + m = buf.headIndex + buf.segments.length := by omega
          rw [hpl, Nat.add_mod_right, Nat.mod_eq_of_lt hh]
        rw [hmm, ← htlhd, getD_set_self ht]
        simp
    refine ⟨?_, fun _ => hfiter, ?_⟩
    · rw [hcountF, hcc, Nat.min_eq_left (by omega)]
    · rw [hfiter]
      exact List.getLast?_concat _
  · have hlt := not_full_of_not_cond buf wf hfull
    have hres : buf.forcePush v =
        ⟨buf.segments.set buf.beyondTailIndex v, buf.headIndex,
          (buf.beyondTailIndex + 1) % buf.capacity, false⟩ := by
      unfold forcePush increment
      simp only [if_neg hfull]
    rw [hres]
    refine ⟨?_, fun hcc => absurd hcc (by omega), ?_⟩
    · rw [pushState_count buf v wf hlt, Nat.min_eq_right (by omega)]
    · rw [pushState_iterList buf v wf hlt]
      exact List.getLast?_concat _

/-- Witness for C7 on a concrete full capacity-3 buffer: the count stays at
3, the oldest element 10 is dropped and 7 becomes the newest. -/
theorem forcePush_spec_witness :
    (CyclicBuffer.mk [10, 20, 30] 0 0 false : CyclicBuffer Nat).WF ∧
    ((CyclicBuffer.mk [10, 20, 30] 0 0 false : CyclicBuffer Nat).forcePush 7).count =
      min (CyclicBuffer.mk [10, 20, 30] 0 0 false : CyclicBuffer Nat).capacity
        ((CyclicBuffer.mk [10, 20, 30] 0 0 false : CyclicBuffer Nat).count + 1) ∧
    ((CyclicBuffer.mk [10, 20, 30] 0 0 false : CyclicBuffer Nat).count =
        (CyclicBuffer.mk [10, 20, 30] 0 0 false : CyclicBuffer Nat).capacity →
      ((CyclicBuffer.mk [10, 20, 30] 0 0 false : CyclicBuffer Nat).forcePush 7).iterList =
        (CyclicBuffer.mk [10, 20, 30] 0 0 false : CyclicBuffer Nat).iterList.drop 1 ++ [7]) ∧
    (((CyclicBuffer.mk [10, 20, 30] 0 0 false : CyclicBuffer Nat).forcePush 7).iterList).getLast? =
      some 7 :=
  ⟨by decide, forcePush_spec (CyclicBuffer.mk [10, 20, 30] 0 0 false) 7 (by decide)⟩

/-- A non-empty well-formed buffer holds at least one element. -/
theorem count_pos (buf : CyclicBuffer T) (wf : buf.WF) (hemp : buf.empty = false) :
    0 < buf.count := by
  obtain ⟨hc, hh, ht, he⟩ := wf
  unfold count
  rw [if_neg (by simp [hemp])]
  unfold capacity at hc hh ht
  by_cases hgt : buf.beyondTailIndex > buf.headIndex
  · rw [if_pos hgt]
    omega
  · rw [if_neg hgt]
    unfold capacity
    omega

/-- Claim C8: `pop` on an empty buffer returns none and leaves the state
untouched; on a non-empty buffer it returns the oldest observable element
and drops it from the observable sequence, and when it removes the last
element the buffer reports empty. -/
theorem pop_spec (buf : CyclicBuffer T) (wf : buf.WF) :
    (buf.empty = true → buf.pop = (none, buf)) ∧
    (buf.empty = false →
      (buf.pop).1 = buf.iterList.head? ∧
      (buf.pop).2.iterList = buf.iterList.tail ∧
      (buf.pop).2.count = buf.count - 1 ∧
      (buf.count = 1 → (buf.pop).2.empty = true)) := by
  constructor
  · intro hemp
    unfold pop
    rw [if_pos hemp]
  · intro hemp
    have hpos := count_pos buf wf hemp
    have hle := count_le_capacity buf wf
    have hcase := tail_cases buf wf
    have htl := tail_eq_head_add_count buf wf
    obtain ⟨hc, hh, ht, he⟩ := wf
    have hinc := inc_eq hh
    have hres : buf.pop = (some (buf.segments.getD buf.headIndex default),
        ⟨buf.segments.set buf.headIndex default, (buf.headIndex + 1) % buf.capacity,
          buf.beyondTailIndex,
          decide ((buf.headIndex + 1) % buf.capacity = buf.beyondTailIndex)⟩) := by
      unfold pop increment
      rw [if_neg (by simp [hemp])]
    rw [hres]
    have hLc : buf.capacity = buf.segments.length := rfl
    have hcount1 : buf.count = (buf.count - 1) + 1 := by omega
    have hcp : count ⟨buf.segments.set buf.headIndex default,
        (buf.headIndex + 1) % buf.capacity, buf.beyondTailIndex,
        decide ((buf.headIndex + 1) % buf.capacity = buf.beyondTailIndex)⟩ =
        buf.count - 1 := by
      by_cases hdec : (buf.headIndex + 1) % buf.capacity = buf.beyondTailIndex
      · have hone : buf.count = 1 := by
          rw [hinc] at hdec
          by_cases hq : buf.headIndex + 1 = buf.capacity
          · rw [if_pos hq] at hdec
            rcases hcase with h1 | ⟨h1, h2⟩ <;> omega
          · rw [if_neg hq] at hdec
            rcases hcase with h1 | ⟨h1, h2⟩ <;> omega
        rw [decide_eq_true hdec]
        show (0 : Nat) = buf.count - 1
        omega
      · rw [decide_eq_false hdec]
        show (if buf.beyondTailIndex > (buf.headIndex + 1) % buf.capacity then
            buf.beyondTailIndex - (buf.headIndex + 1) % buf.capacity
          else buf.beyondTailIndex + (buf.segments.set buf.headIndex default).length -
            (buf.headIndex + 1) % buf.capacity) = buf.count - 1
        rw [List.length_set, hinc]
        rw [hinc] at hdec
        by_cases hq : buf.headIndex + 1 = buf.capacity
        · rw [if_pos hq] at hdec ⊢
          rcases hcase with h1 | ⟨h1, h2⟩ <;> split_ifs <;> omega
        · rw [if_neg hq] at hdec ⊢
          rcases hcase with h1 | ⟨h1, h2⟩ <;> split_ifs <;> omega
    have hcapP : capacity ⟨buf.segments.set buf.headIndex default,
        (buf.headIndex + 1) % buf.capacity, buf.beyondTailIndex,
        decide ((buf.headIndex + 1) % buf.capacity = buf.beyondTailIndex)⟩ =
        buf.capacity := by
      simp [capacity]
    refine ⟨?_, ?_, hcp, ?_⟩
    · show some (buf.segments.getD buf.headIndex default) = buf.iterList.head?
      unfold iterList
      rw [hcount1, List.range_succ_eq_map, List.map_cons, List.head?_cons]
      simp [Nat.mod_eq_of_lt hh]
    · show iterList ⟨buf.segments.set buf.headIndex default,
        (buf.headIndex + 1) % buf.capacity, buf.beyondTailIndex,
        decide ((buf.headIndex + 1) % buf.capacity = buf.beyondTailIndex)⟩ =
        buf.iterList.tail
      unfold iterList
      rw [hcp, hcapP]
      conv_rhs => rw [hcount1, List.range_succ_eq_map]
      simp only [List.map_cons, List.tail_cons, List.map_map]
      apply List.map_congr_left
      intro i hi
      rw [List.mem_range] at hi
      simp only [Function.comp]
      rw [Nat.mod_add_mod, Nat.add_assoc]
      have hslot : (buf.headIndex + (1 + i)) % buf.capacity ≠ buf.headIndex := by
        intro hq
        have hq0 : (buf.headIndex + (1 + i)) % buf.capacity =
            (buf.headIndex + 0) % buf.capacity := by
          rw [hq, Nat.add_zero, Nat.mod_eq_of_lt hh]
        have := mod_add_cancel (c := buf.capacity) (by omega) (by omega) hq0
        omega
      rw [getD_set_ne hslot]
      have hcomm : buf.headIndex + (1 + i) = buf.headIndex + (i + 1) := by omega
      rw [hcomm]
    · intro h1
      show decide ((buf.headIndex + 1) % buf.capacity = buf.beyondTailIndex) = true
      apply decide_eq_true
      rw [htl, h1]

/-- Witness for C8 on a concrete one-element buffer: pop returns the oldest
element 42, empties the buffer, and a pop on the resulting empty buffer
returns none without mutation. -/
theorem pop_spec_witness :
    (CyclicBuffer.mk [42, 0, 0] 0 1 false : CyclicBuffer Nat).WF ∧
    ((CyclicBuffer.mk [42, 0, 0] 0 1 false : CyclicBuffer Nat).empty = false →
      ((CyclicBuffer.mk [42, 0, 0] 0 1 false : CyclicBuffer Nat).pop).1 =
        (CyclicBuffer.mk [42, 0, 0] 0 1 false : CyclicBuffer Nat).iterList.head? ∧
      ((CyclicBuffer.mk [42, 0, 0] 0 1 false : CyclicBuffer Nat).pop).2.iterList =
        (CyclicBuffer.mk [42, 0, 0] 0 1 false : CyclicBuffer Nat).iterList.tail ∧
      ((CyclicBuffer.mk [42, 0, 0] 0 1 false : CyclicBuffer Nat).pop).2.count =
        (CyclicBuffer.mk [42, 0, 0] 0 1 false : CyclicBuffer Nat).count - 1 ∧
      ((CyclicBuffer.mk [42, 0, 0] 0 1 false : CyclicBuffer Nat).count = 1 →
        ((CyclicBuffer.mk [42, 0, 0] 0 1 false : CyclicBuffer Nat).pop).2.empty = true)) ∧
    ((CyclicBuffer.mk [0, 0, 0] 1 1 true : CyclicBuffer Nat).WF ∧
      ((CyclicBuffer.mk [0, 0, 0] 1 1 true : CyclicBuffer Nat).empty = true →
        (CyclicBuffer.mk [0, 0, 0] 1 1 true : CyclicBuffer Nat).pop =
          (none, CyclicBuffer.mk [0, 0, 0] 1 1 true))) :=
  ⟨by decide,
    (pop_spec (CyclicBuffer.mk [42, 0, 0] 0 1 false) (by decide)).2,
    by decide,
    (pop_spec (CyclicBuffer.mk [0, 0, 0] 1 1 true) (by decide)).1⟩

end CyclicBuffer

/-- Claim C9: iteration through repeated `Iter::next` calls yields exactly
the held elements oldest-first without mutating the buffer (`iterCollect`
agrees with the derived observable sequence `iterList` for every buffer);
concretely, a capacity-3 buffer after pushes of 1, 2, 3 iterates as
[1, 2, 3], and after one further forced push of 4 as [2, 3, 4]. -/
theorem iter_yields_in_order :
    (∀ buf : CyclicBuffer Nat, CyclicBuffer.iterCollect buf buf.count 0 = buf.iterList) ∧
    (CyclicBuffer.iterCollect
        ((((CyclicBuffer.new Nat 3).push 1).2.push 2).2.push 3).2
        (((((CyclicBuffer.new Nat 3).push 1).2.push 2).2.push 3).2.count) 0 = [1, 2, 3] ∧
      (((((CyclicBuffer.new Nat 3).push 1).2.push 2).2.push 3).2.iterList = [1, 2, 3]) ∧
      CyclicBuffer.iterCollect
        (((((CyclicBuffer.new Nat 3).push 1).2.push 2).2.push 3).2.forcePush 4)
        ((((((CyclicBuffer.new Nat 3).push 1).2.push 2).2.push 3).2.forcePush 4).count) 0 =
        [2, 3, 4] ∧
      ((((((CyclicBuffer.new Nat 3).push 1).2.push 2).2.push 3).2.forcePush 4).iterList =
        [2, 3, 4])) := by
  constructor
  · intro buf
    have haux : ∀ fuel pos, pos + fuel = buf.count →
        CyclicBuffer.iterCollect buf fuel pos =
          (List.range' pos fuel).map
            (fun i => buf.segments.getD ((buf.headIndex + i) % buf.capacity) default) := by
      intro fuel
      induction fuel with
      | zero => intro pos hp; rfl
      | succ n ih =>
        intro pos hp
        unfold CyclicBuffer.iterCollect CyclicBuffer.iterNext
        rw [if_neg (by omega)]
        rw [List.range'_succ, List.map_cons]
        exact congrArg _ (ih (pos + 1) (by omega))
    rw [haux buf.count 0 (Nat.zero_add _)]
    unfold CyclicBuffer.iterList
    rw [List.range_eq_range']
  · exact ⟨by decide, by decide, by decide, by decide⟩

/-! Lemmas for the scratch-buffer size claim. -/

/-- A UTF-8 encoding is at most four bytes. -/
theorem utf8Bytes_length_le (c : Nat) : (utf8Bytes c).length ≤ 4 := by
  unfold utf8Bytes
  split_ifs <;> simp

/-- A color command is at most five bytes. -/
theorem colorEncode_length_le (c : Color) : (Color.encodeAscii c).length ≤ 5 := by
  cases c <;> decide

/-- The decimal rendering of a number below `10 ^ k` has at most `k`
digits. -/
theorem natDecStr_length_le : ∀ (k n : Nat), n < 10 ^ k → 1 ≤ k →
    (natDecStr n).length ≤ k := by
  intro k
  induction k with
  | zero => intro n _ hk; omega
  | succ k ih =>
    intro n hn _
    by_cases h10 : n < 10
    · rw [natDecStr_of_lt h10]
      simp
    · push_neg at h10
      have hk1 : 1 ≤ k := by
        rcases Nat.eq_zero_or_pos k with rfl | h
        · simp at hn
          omega
        · exact h
      rw [natDecStr_of_ge h10]
      have hdiv : n / 10 < 10 ^ k := by
        rw [Nat.div_lt_iff_lt_mul (by norm_num)]
        calc n < 10 ^ (k + 1) := hn
        _ = 10 ^ k * 10 := by rw [pow_succ]
      have := ih (n / 10) hdiv hk1
      simp only [List.length_append, List.length_cons, List.length_nil]
      omega

/-- The byte length of a cursor-move command in terms of digit counts. -/
theorem posEncode_length (p : Position) :
    (Position.encodeAscii p).length = 4 + dlen (p.y + 1) + dlen (p.x + 1) := by
  unfold Position.encodeAscii dlen
  simp only [List.length_cons, List.length_append, List.length_nil]
  omega

/-- Walking any cell list with in-range coordinates emits at most 19 bytes
per cell, provided the grid is at most 999 columns wide and the walk stays
within 999 rows. -/
theorem diffGo_length_le (w : Nat) (hw : w ≤ 999) :
    ∀ (pairs : List (Pixel × Pixel)) (pos lastPos : Position) (lastColor : Color),
      pos.x < w → pos.y * w + pos.x + pairs.length ≤ w * 999 →
      (diffGo w pos lastPos lastColor pairs).length ≤ 19 * pairs.length := by
  intro pairs
  induction pairs with
  | nil =>
    intro pos lastPos lastColor _ _
    simp [diffGo]
  | cons hd tl ih =>
    obtain ⟨p1, p2⟩ := hd
    intro pos lastPos lastColor hx hinv
    simp only [List.length_cons] at hinv
    have hy : pos.y ≤ 998 := by
      by_contra hy'
      push_neg at hy'
      have hge : 999 * w ≤ pos.y * w := Nat.mul_le_mul_right w (by omega)
      omega
    have hxle : pos.x ≤ 998 := by omega
    rw [diffGo_cons]
    simp only [List.length_append, List.length_cons]
    have hA : (if p1 ≠ p2 ∧ (pos.y ≠ lastPos.y ∨ pos.x ≠ lastPos.x + 1) then
        pos.encodeAscii else []).length ≤ 10 := by
      split
      · rw [posEncode_length]
        have h1 : (natDecStr (pos.y + 1)).length ≤ 3 :=
          natDecStr_length_le 3 (pos.y + 1) (by omega) (by norm_num)
        have h2 : (natDecStr (pos.x + 1)).length ≤ 3 :=
          natDecStr_length_le 3 (pos.x + 1) (by omega) (by norm_num)
        unfold dlen
        omega
      · simp
    have hB : (if p1.color ≠ p2.color ∧ p1.color ≠ lastColor then
        p1.color.encodeAscii else []).length ≤ 5 := by
      split
      · exact colorEncode_length_le _
      · simp
    have hC : (if p1.color ≠ p2.color ∨ p1.character ≠ p2.character then
        p1.encodeAscii else []).length ≤ 4 := by
      split
      · exact utf8Bytes_length_le _
      · simp
    have hx' : (advancePos w pos).x < w := by
      simp only [advancePos]
      split_ifs with hcond
      · show 0 < w
        omega
      · show pos.x + 1 < w
        omega
    have hinv' : (advancePos w pos).y * w + (advancePos w pos).x + tl.length ≤
        w * 999 := by
      simp only [advancePos]
      split_ifs with hcond
      · show (pos.y + 1) * w + 0 + tl.length ≤ w * 999
        rw [Nat.succ_mul]
        omega
      · show pos.y * w + (pos.x + 1) + tl.length ≤ w * 999
        omega
    have hD := ih (advancePos w pos)
      (if p1.color ≠ p2.color ∨ p1.character ≠ p2.character then pos else lastPos)
      (if p1.color ≠ p2.color ∧ p1.color ≠ lastColor then p1.color else lastColor)
      hx' hinv'
    omega

/-- Claim C1 as amended: for grids at most 999 cells wide and 999 rows
tall, one diff call writes at most `W * H * 19` bytes — the scratch buffer
capacity chosen at construction — so every write lands inside the scratch
buffer.  (The unbounded claim fails once coordinates reach six decimal
digits; see the counterexample.) -/
theorem updateCommandCache_le_cacheSize (fb : FrameBuffer)
    (hw : fb.dimensions.x ≤ 999) (hh : fb.dimensions.y ≤ 999)
    (hf : fb.front.length = fb.dimensions.x * fb.dimensions.y)
    (hb : fb.back.length = fb.dimensions.x * fb.dimensions.y) :
    fb.updateCommandCache.length ≤ FrameBuffer.commandCacheSize fb.dimensions := by
  unfold FrameBuffer.updateCommandCache FrameBuffer.commandCacheSize
  have hzip : (fb.front.zip fb.back).length = fb.dimensions.x * fb.dimensions.y := by
    rw [List.length_zip, hf, hb, Nat.min_self]
  rcases Nat.eq_zero_or_pos fb.dimensions.x with hx0 | hxpos
  · have h0 : (fb.front.zip fb.back).length = 0 := by
      rw [hzip, hx0, Nat.zero_mul]
    rw [List.length_eq_zero] at h0
    rw [h0]
    simp [diffGo]
  · have hb19 := diffGo_length_le fb.dimensions.x hw (fb.front.zip fb.back)
      ⟨0, 0⟩ ⟨0, 0⟩ Color.Default hxpos
      (by
        show 0 * fb.dimensions.x + 0 + (fb.front.zip fb.back).length ≤
          fb.dimensions.x * 999
        rw [hzip, Nat.zero_mul]
        have := Nat.mul_le_mul_left fb.dimensions.x hh
        omega)
    rw [hzip] at hb19
    omega

/-- Witness for the amended C1: a concrete 2-by-2 frame buffer with one
changed cell stays within the 76-byte scratch budget. -/
theorem updateCommandCache_le_cacheSize_witness :
    (FrameBuffer.mk ⟨2, 2⟩
        [⟨'q', Color.Red⟩, ⟨' ', Color.Default⟩, ⟨' ', Color.Default⟩, ⟨' ', Color.Default⟩]
        (List.replicate 4 (default : Pixel)) true).dimensions.x ≤ 999 ∧
    (FrameBuffer.mk ⟨2, 2⟩
        [⟨'q', Color.Red⟩, ⟨' ', Color.Default⟩, ⟨' ', Color.Default⟩, ⟨' ', Color.Default⟩]
        (List.replicate 4 (default : Pixel)) true).dimensions.y ≤ 999 ∧
    (FrameBuffer.mk ⟨2, 2⟩
        [⟨'q', Color.Red⟩, ⟨' ', Color.Default⟩, ⟨' ', Color.Default⟩, ⟨' ', Color.Default⟩]
        (List.replicate 4 (default : Pixel)) true).front.length = 2 * 2 ∧
    (FrameBuffer.mk ⟨2, 2⟩
        [⟨'q', Color.Red⟩, ⟨' ', Color.Default⟩, ⟨' ', Color.Default⟩, ⟨' ', Color.Default⟩]
        (List.replicate 4 (default : Pixel)) true).back.length = 2 * 2 ∧
    (FrameBuffer.mk ⟨2, 2⟩
        [⟨'q', Color.Red⟩, ⟨' ', Color.Default⟩, ⟨' ', Color.Default⟩, ⟨' ', Color.Default⟩]
        (List.replicate 4 (default : Pixel)) true).updateCommandCache.length ≤
      FrameBuffer.commandCacheSize ⟨2, 2⟩ :=
  ⟨by norm_num, by norm_num, by decide, by decide,
    updateCommandCache_le_cacheSize _ (by norm_num) (by norm_num) (by decide) (by decide)⟩

/-! Lemmas for the counterexample to the unbounded scratch-buffer claim. -/

/-- Every decimal rendering has at least one digit. -/
theorem dlen_pos (n : Nat) : 1 ≤ dlen n := by
  unfold dlen
  by_cases h : n < 10
  · rw [natDecStr_of_lt h]
    simp
  · push_neg at h
    rw [natDecStr_of_ge h]
    simp

/-- Recurrence for the digit count of a multi-digit number. -/
theorem dlen_of_ge {n : Nat} (h : 10 ≤ n) : dlen n = dlen (n / 10) + 1 := by
  unfold dlen
  rw [natDecStr_of_ge h]
  simp

/-- A number at least `10 ^ d` has more than `d` digits. -/
theorem dlen_gt : ∀ (d n : Nat), 10 ^ d ≤ n → d + 1 ≤ dlen n := by
  intro d
  induction d with
  | zero =>
    intro n _
    simpa using dlen_pos n
  | succ d ih =>
    intro n h
    have h10 : 10 ≤ n := by
      calc (10 : Nat) = 10 ^ 1 := (pow_one 10).symm
      _ ≤ 10 ^ (d + 1) := Nat.pow_le_pow_right (by norm_num) (by omega)
      _ ≤ n := h
    rw [dlen_of_ge h10]
    have hdiv : 10 ^ d ≤ n / 10 := by
      rw [Nat.le_div_iff_mul_le (by norm_num)]
      calc 10 ^ d * 10 = 10 ^ (d + 1) := (pow_succ 10 d).symm
      _ ≤ n := h
    have := ih (n / 10) hdiv
    omega

/-- Splitting the cost sum of a run of rows into two consecutive runs. -/
theorem costSum_add : ∀ (m y n : Nat),
    costSum y (m + n) = costSum y m + costSum (y + m) n := by
  intro m
  induction m with
  | zero =>
    intro y n
    simp [costSum]
  | succ m ih =>
    intro y n
    have h1 : m + 1 + n = (m + n) + 1 := by omega
    rw [h1]
    show (14 + dlen (y + 1)) + costSum (y + 1) (m + n) =
      ((14 + dlen (y + 1)) + costSum (y + 1) m) + costSum (y + (m + 1)) n
    rw [ih (y + 1) n]
    have h2 : y + 1 + m = y + (m + 1) := by omega
    rw [h2]
    omega

/-- Lower bound on a run's cost from a per-row digit lower bound. -/
theorem costSum_ge : ∀ (m y c : Nat), (∀ j, j < m → c ≤ dlen (y + j + 1)) →
    (14 + c) * m ≤ costSum y m := by
  intro m
  induction m with
  | zero =>
    intro y c _
    simp [costSum]
  | succ m ih =>
    intro y c h
    have h0 : c ≤ dlen (y + 1) := by
      have := h 0 (by omega)
      simpa using this
    have hrest : ∀ j, j < m → c ≤ dlen (y + 1 + j + 1) := by
      intro j hj
      have hgen := h (j + 1) (by omega)
      have he : y + (j + 1) + 1 = y + 1 + j + 1 := by omega
      rw [he] at hgen
      exact hgen
    have hih := ih (y + 1) c hrest
    show (14 + c) * (m + 1) ≤ (14 + dlen (y + 1)) + costSum (y + 1) m
    rw [Nat.mul_succ]
    omega

/-- The alternating row color is never the default color. -/
theorem rowColor_ne_default (y : Nat) : rowColor y ≠ Color.Default := by
  unfold rowColor
  split_ifs <;> decide

/-- Adjacent rows of the counterexample grid have different colors. -/
theorem rowColor_succ_ne (y : Nat) : rowColor y ≠ rowColor (y + 1) := by
  unfold rowColor
  by_cases h : y % 2 = 0
  · rw [if_pos h, if_neg (by omega)]
    decide
  · rw [if_neg h, if_pos (by omega)]
    decide

/-- The counterexample's color commands are five bytes. -/
theorem rowColor_encode_length (y : Nat) : ((rowColor y).encodeAscii).length = 5 := by
  unfold rowColor
  split_ifs <;> decide

/-- Zipping the counterexample front column against a default back column
yields the generated cell pairs. -/
theorem cexFront_zip : ∀ (m y : Nat),
    (cexFront y m).zip (List.replicate m (default : Pixel)) = cexCells y m := by
  intro m
  induction m with
  | zero => intro y; rfl
  | succ m ih =>
    intro y
    show ((⟨Char.ofNat 65536, rowColor y⟩ : Pixel) :: cexFront (y + 1) m).zip
      ((default : Pixel) :: List.replicate m (default : Pixel)) = _
    rw [List.zip_cons_cons, ih (y + 1)]
    rfl

/-- The diff walk over the counterexample grid costs exactly `costSum`:
each row forces a cursor move (the column is 0, never adjacent to the last
written position), a five-byte color command and a four-byte character. -/
theorem cexCells_walk : ∀ (m y : Nat) (lastPos : Position) (lastColor : Color),
    lastColor ≠ rowColor y →
    (diffGo 1 ⟨0, y⟩ lastPos lastColor (cexCells y m)).length = costSum y m := by
  intro m
  induction m with
  | zero =>
    intro y lastPos lastColor _
    rfl
  | succ m ih =>
    intro y lastPos lastColor hlc
    show (diffGo 1 ⟨0, y⟩ lastPos lastColor
      ((⟨Char.ofNat 65536, rowColor y⟩, (default : Pixel)) :: cexCells (y + 1) m)).length = _
    rw [diffGo_cons]
    have hpne : (⟨Char.ofNat 65536, rowColor y⟩ : Pixel) ≠ (default : Pixel) := by
      intro he
      have hch : Char.ofNat 65536 = ' ' := congrArg Pixel.character he
      exact absurd hch (by decide)
    show ((if (⟨Char.ofNat 65536, rowColor y⟩ : Pixel) ≠ (default : Pixel) ∧
          (y ≠ lastPos.y ∨ (0 : Nat) ≠ lastPos.x + 1) then
        Position.encodeAscii ⟨0, y⟩ else []) ++
      (if rowColor y ≠ Color.Default ∧ rowColor y ≠ lastColor then
        (rowColor y).encodeAscii else []) ++
      (if rowColor y ≠ Color.Default ∨ Char.ofNat 65536 ≠ ' ' then
        Pixel.encodeAscii ⟨Char.ofNat 65536, rowColor y⟩ else []) ++
      diffGo 1 (advancePos 1 ⟨0, y⟩)
        (if rowColor y ≠ Color.Default ∨ Char.ofNat 65536 ≠ ' ' then (⟨0, y⟩ : Position)
          else lastPos)
        (if rowColor y ≠ Color.Default ∧ rowColor y ≠ lastColor then rowColor y
          else lastColor)
        (cexCells (y + 1) m)).length = costSum y (m + 1)
    rw [if_pos ⟨hpne, Or.inr (by omega)⟩]
    rw [if_pos ⟨rowColor_ne_default y, Ne.symm hlc⟩]
    rw [if_pos (Or.inl (rowColor_ne_default y))]
    rw [if_pos (show rowColor y ≠ Color.Default ∨ Char.ofNat 65536 ≠ ' ' from
      Or.inl (rowColor_ne_default y)),
      if_pos (show rowColor y ≠ Color.Default ∧ rowColor y ≠ lastColor from
        ⟨rowColor_ne_default y, Ne.symm hlc⟩)]
    rw [show advancePos 1 ⟨0, y⟩ = ⟨0, y + 1⟩ from rfl]
    rw [List.length_append, List.length_append, List.length_append]
    rw [ih (y + 1) ⟨0, y⟩ (rowColor y) (rowColor_succ_ne y)]
    rw [posEncode_length]
    have hd1 : dlen ((⟨0, y⟩ : Position).x + 1) = 1 := by
      show dlen 1 = 1
      unfold dlen
      rw [natDecStr_of_lt (by norm_num)]
      rfl
    rw [hd1, rowColor_encode_length]
    rw [show (Pixel.encodeAscii ⟨Char.ofNat 65536, rowColor y⟩).length =
      (utf8Bytes 65536).length from rfl]
    rw [show (utf8Bytes 65536).length = 4 from by decide]
    show 4 + dlen ((⟨0, y⟩ : Position).y + 1) + 1 + 5 + 4 + costSum (y + 1) m =
      (14 + dlen (y + 1)) + costSum (y + 1) m
    rw [show dlen ((⟨0, y⟩ : Position).y + 1) = dlen (y + 1) from rfl]
    omega

/-- Counterexample to the unbounded scratch-buffer claim: on a 1-by-120000
grid whose cells all change color (alternating red and green) and all
change to a four-byte character, one diff call writes 2288895 bytes,
exceeding the scratch capacity `W * H * 19 = 2280000` — so the claim fails
for grids this tall (each cursor move beyond row 99999 spends six digits on
the row number). -/
theorem scratch_budget_counterexample :
    FrameBuffer.commandCacheSize (⟨1, 120000⟩ : Dimensions) <
      ((FrameBuffer.mk ⟨1, 120000⟩ (cexFront 0 120000)
        (List.replicate 120000 (default : Pixel)) true).updateCommandCache).length := by
  have hzip := cexFront_zip 120000 0
  have hwalk := cexCells_walk 120000 0 ⟨0, 0⟩ Color.Default (by decide)
  show FrameBuffer.commandCacheSize (⟨1, 120000⟩ : Dimensions) <
    (diffGo 1 ⟨0, 0⟩ ⟨0, 0⟩ Color.Default
      ((cexFront 0 120000).zip (List.replicate 120000 (default : Pixel)))).length
  rw [hzip, hwalk]
  have hchunk : ∀ y0 M D : Nat, 10 ^ D ≤ y0 + 1 → (14 + (D + 1)) * M ≤ costSum y0 M := by
    intro y0 M D hD
    apply costSum_ge
    intro j hj
    apply dlen_gt
    omega
  have s1 := costSum_add 9 0 119991
  have s2 := costSum_add 90 9 119901
  have s3 := costSum_add 900 99 119001
  have s4 := costSum_add 9000 999 110001
  have s5 := costSum_add 90000 9999 20001
  norm_num at s1 s2 s3 s4 s5
  rw [s1, s2, s3, s4, s5]
  have h1 := hchunk 0 9 0 (by norm_num)
  have h2 := hchunk 9 90 1 (by norm_num)
  have h3 := hchunk 99 900 2 (by norm_num)
  have h4 := hchunk 999 9000 3 (by norm_num)
  have h5 := hchunk 9999 90000 4 (by norm_num)
  have h6 := hchunk 99999 20001 5 (by norm_num)
  norm_num at h1 h2 h3 h4 h5 h6
  have hsize : FrameBuffer.commandCacheSize (⟨1, 120000⟩ : Dimensions) = 2280000 := by
    norm_num [FrameBuffer.commandCacheSize]
  rw [hsize]
  omega

end Rustsnake
